import Mathlib

/-!
Shallow embedding of `src/normalize.js` (a Firestore field-normalization
migration script).

Strings are modelled as lists of UTF-16 code units (`List Nat`); every string
appearing in the claims lies in the Basic Multilingual Plane, where code units
and code points coincide.  The JavaScript built-ins `String.prototype.normalize`
(NFD / NFKC) and `toLowerCase` are modelled table-driven, with the Unicode data
(decomposition mappings, primary composites, case mappings) restricted to the
character repertoire exercised by the claims: ASCII, hiragana U+3041–U+3096,
katakana U+30A1–U+30F6, fullwidth ASCII U+FF01–U+FF5E, the precomposed Latin
letters Ā ā É é Ṇ ṇ Ä, and U+00A8 DIAERESIS (whose compatibility decomposition
is `0020 0308` per UnicodeData.txt).  Canonical reordering of combining marks
is omitted: no modelled decomposition produces two adjacent combining marks.
-/

namespace FirestoreFieldNorm

/-- A JavaScript value, as far as `normalize.js` inspects one: `null`,
booleans, numbers, strings (lists of code units), arrays, and objects
(ordered key/value lists, first binding wins on lookup). -/
inductive JsValue where
  | vNull : JsValue
  | vBool : Bool → JsValue
  | vNum : Int → JsValue
  | vStr : List Nat → JsValue
  | vArr : List JsValue → JsValue
  | vObj : List (String × JsValue) → JsValue

open JsValue

/-- Property access `data.k` on a document's data: the first binding of `k`
if `data` is an object, otherwise `undefined` (modelled as `none`). -/
def getField : JsValue → String → Option JsValue
  | vObj fields, k => fields.lookup k
  | _, _ => none

/-- JavaScript truthiness of `data.k` (with `none` standing for `undefined`):
`undefined`, `null`, `false`, `0` and `""` are falsy; every other value,
including any array or object, is truthy. -/
def truthy : Option JsValue → Bool
  | none => false
  | some vNull => false
  | some (vBool b) => b
  | some (vNum n) => n != 0
  | some (vStr s) => !s.isEmpty
  | some (vArr _) => true
  | some (vObj _) => true

/-- `hiraToKata`, per code unit: the regex `[ぁ-ゖ]` replacement adds
`0x60` to each hiragana code point, leaving all else unchanged
(normalize.js lines 20–26). -/
def kataShift (c : Nat) : Nat :=
  if 0x3041 ≤ c ∧ c ≤ 0x3096 then c + 0x60 else c

/-- `hiraToKata` on a whole string (normalize.js lines 20–26). -/
def hiraToKata (s : List Nat) : List Nat := s.map kataShift

/-- Unicode canonical decomposition (fully expanded), restricted to the
modelled repertoire; characters outside it decompose to themselves.
Entries follow UnicodeData.txt: Ā→A+U+0304, ā→a+U+0304, É→E+U+0301,
é→e+U+0301, Ä→A+U+0308, ä→a+U+0308, Ṇ→N+U+0323, ṇ→n+U+0323. -/
def canonicalDecomp (c : Nat) : List Nat :=
  if c = 0x100 then [0x41, 0x304]
  else if c = 0x101 then [0x61, 0x304]
  else if c = 0xC9 then [0x45, 0x301]
  else if c = 0xE9 then [0x65, 0x301]
  else if c = 0xC4 then [0x41, 0x308]
  else if c = 0xE4 then [0x61, 0x308]
  else if c = 0x1E46 then [0x4E, 0x323]
  else if c = 0x1E47 then [0x6E, 0x323]
  else [c]

/-- `str.normalize('NFD')` (normalize.js line 49, first half). -/
def nfd (s : List Nat) : List Nat := s.flatMap canonicalDecomp

/-- Membership in the combining-diacritical-marks block, the regex
`[̀-ͯ]` of normalize.js line 49. -/
def isCdm (c : Nat) : Bool := 0x300 ≤ c && c ≤ 0x36F

/-- `.replace(/[̀-ͯ]/g, '')` (normalize.js line 49, second half). -/
def stripCdm (s : List Nat) : List Nat := s.filter (fun c => !isCdm c)

/-- Unicode compatibility decomposition (fully expanded), restricted to the
modelled repertoire: fullwidth ASCII folds by `-0xFEE0`; U+00A8 DIAERESIS
has compatibility mapping `0020 0308`; otherwise it agrees with the
canonical decomposition. -/
def compatDecomp (c : Nat) : List Nat :=
  if 0xFF01 ≤ c ∧ c ≤ 0xFF5E then [c - 0xFEE0]
  else if c = 0xA8 then [0x20, 0x308]
  else canonicalDecomp c

/-- Primary composites of the modelled repertoire (the canonical composition
step of NFKC).  There is no composite for `(space, U+0308)`. -/
def composePair (a b : Nat) : Option Nat :=
  if a = 0x41 ∧ b = 0x304 then some 0x100
  else if a = 0x61 ∧ b = 0x304 then some 0x101
  else if a = 0x45 ∧ b = 0x301 then some 0xC9
  else if a = 0x65 ∧ b = 0x301 then some 0xE9
  else if a = 0x41 ∧ b = 0x308 then some 0xC4
  else if a = 0x61 ∧ b = 0x308 then some 0xE4
  else if a = 0x4E ∧ b = 0x323 then some 0x1E46
  else if a = 0x6E ∧ b = 0x323 then some 0x1E47
  else none

/-- Canonical composition pass, with the pending starter `a` as
accumulator: combine it with an immediately following combining character
when a primary composite exists. -/
def composeAux (a : Nat) : List Nat → List Nat
  | [] => [a]
  | b :: t =>
    match composePair a b with
    | some c => composeAux c t
    | none => a :: composeAux b t

/-- Canonical composition pass over a whole string. -/
def composeScan : List Nat → List Nat
  | [] => []
  | a :: t => composeAux a t

/-- `str.normalize('NFKC')` (normalize.js line 54): compatibility
decomposition followed by canonical composition. -/
def nfkc (s : List Nat) : List Nat := composeScan (s.flatMap compatDecomp)

/-- `toLowerCase`, per code unit, on the modelled repertoire (only ASCII
letters are uppercase there after NFKC). -/
def lowerChar (c : Nat) : Nat :=
  if 0x41 ≤ c ∧ c ≤ 0x5A then c + 0x20 else c

/-- `str.toLowerCase()` (normalize.js line 58). -/
def toLower (s : List Nat) : List Nat := s.map lowerChar

/-- `normalizeForSearch` on an actual string (normalize.js lines 37–61):
empty strings short-circuit to `""`; otherwise hiragana→katakana, then NFD
with combining-mark removal, then NFKC, then lowercasing, in that order. -/
def normalizeForSearchStr (s : List Nat) : List Nat :=
  if s.isEmpty then []
  else toLower (nfkc (stripCdm (nfd (hiraToKata s))))

/-- `normalizeForSearch` (normalize.js lines 37–61): non-string input
(`typeof inputStr !== 'string'`) yields `""`. -/
def normalizeForSearch : JsValue → List Nat
  | vStr s => normalizeForSearchStr s
  | _ => []

/-- `ngrams.add(t)` on a JavaScript `Set`: first insertion wins, insertion
order preserved (`Array.from` later reads it back in that order). -/
def addToSet (acc : List (List Nat)) (t : List Nat) : List (List Nat) :=
  if t ∈ acc then acc else acc ++ [t]

/-- `text.substring(i, i + n)` on code units. -/
def substringJS (text : List Nat) (i n : Nat) : List Nat :=
  (text.drop i).take n

/-- `createNgrams` (normalize.js lines 70–82): for each `n` in `nValues`,
insert `text.substring(i, i + n)` for `i = 0, …, text.length - n` into one
deduplicating set; empty/non-string text yields `[]`.  The JavaScript loop
bound `i < text.length - n + 1` is `i < text.length + 1 - n` in ℕ (the
subtraction happens before the `+ 1`, and a non-positive bound runs the
loop zero times). -/
def createNgrams (text : List Nat) (nValues : List Nat := [2, 3]) : List (List Nat) :=
  if text.isEmpty then []
  else nValues.foldl
    (fun acc n =>
      (List.range (text.length + 1 - n)).foldl
        (fun a i => addToSet a (substringJS text i n)) acc)
    []

/-- The field-update object `updateData` built per document
(normalize.js lines 109–143): `aliases_norm = none` means the field is not
written by this update. -/
structure UpdateData where
  name_norm : List Nat
  name_norm_ngrams : List (List Nat)
  aliases_norm : Option (List (List Nat))
  deriving DecidableEq

/-- `Object.values(x)[0]` for the two `typeof x === 'object'` shapes. -/
def objFirstValue : JsValue → Option JsValue
  | vObj fields => (fields.map Prod.snd).head?
  | vArr l => l.head?
  | _ => none

/-- The `firstValue` fallback (normalize.js lines 119–123): the first value
of the map, kept only when it is a truthy string. -/
def firstFallback (v : JsValue) : List Nat :=
  match objFirstValue v with
  | some (vStr s) => if s.isEmpty then [] else s
  | _ => []

/-- `baseName` resolution (normalize.js lines 113–124): requires
`data.name` truthy with `typeof 'object'` (objects and arrays; `null` is
falsy); prefers a truthy string at key `"en"`; else falls back to the first
value when that is a truthy string; else the empty string. -/
def resolveBaseName (data : JsValue) : List Nat :=
  match getField data "name" with
  | some (vObj fields) =>
    match fields.lookup "en" with
    | some (vStr s) => if s.isEmpty then firstFallback (vObj fields) else s
    | _ => firstFallback (vObj fields)
  | some (vArr l) => firstFallback (vArr l)
  | _ => []

/-- `data.aliases.filter(typeof string).map(normalizeForSearch)`
(normalize.js lines 137–139). -/
def normalizeAliases (l : List JsValue) : List (List Nat) :=
  (l.filter fun v => match v with | vStr _ => true | _ => false).map normalizeForSearch

/-- One document's `updateData` (normalize.js lines 109–143): `name_norm`
and `name_norm_ngrams` are always computed; `aliases_norm` is written from
`data.aliases` when that is an array, written as `[]` when
`data.aliases_norm` is falsy (`else if (!data.aliases_norm)`), and left
unwritten otherwise. -/
def buildUpdate (data : JsValue) : UpdateData :=
  let nameNorm := normalizeForSearchStr (resolveBaseName data)
  let ngrams := createNgrams nameNorm
  let aliases :=
    match getField data "aliases" with
    | some (vArr l) => some (normalizeAliases l)
    | _ => if truthy (getField data "aliases_norm") then none else some []
  ⟨nameNorm, ngrams, aliases⟩

/-- The batching state of `migrateData` (normalize.js lines 100–103):
`batchArray`, `operationCounter`, `batchIndex`. -/
structure BatchState (α : Type) where
  arr : List (List α)
  counter : Nat
  idx : Nat

/-- Replace the element at an index (used for
`batchArray[batchIndex].update(...)`). -/
def modifyIdx {β : Type} : List β → Nat → (β → β) → List β
  | [], _, _ => []
  | x :: xs, 0, f => f x :: xs
  | x :: xs, Nat.succ n, f => x :: modifyIdx xs n f

/-- One iteration of the `snapshot.forEach` body's batching tail
(normalize.js lines 146–154): append the document's operation to
`batchArray[batchIndex]`, increment `operationCounter`, and on reaching 500
push a fresh empty batch, advance `batchIndex`, reset the counter. -/
def batchStep {α : Type} (s : BatchState α) (d : α) : BatchState α :=
  let arr := modifyIdx s.arr s.idx (fun b => b ++ [d])
  let c := s.counter + 1
  if c = 500 then ⟨arr ++ [[]], 0, s.idx + 1⟩ else ⟨arr, c, s.idx⟩

/-- The batch partitioning of `migrateData` (normalize.js lines 94–155):
an empty snapshot returns early, before any batch is created (lines 94–97);
otherwise the run starts from one empty batch and folds `batchStep` over
the documents, and every batch in the final `batchArray` is committed. -/
def migrateBatches {α : Type} (docs : List α) : List (List α) :=
  if docs.isEmpty then []
  else (docs.foldl batchStep ⟨[[]], 0, 0⟩).arr

/-- Denotation of `Promise.all` over already-settled outcomes (normalize.js
line 159): the ok-list of all results when every promise fulfils, or a
single bare rejection value when any fails (modelled as the first failure
in index order). -/
def promiseAll {ε β : Type} : List (Except ε β) → Except ε (List β)
  | [] => Except.ok []
  | x :: xs =>
    match x with
    | Except.error e => Except.error e
    | Except.ok a =>
      match promiseAll xs with
      | Except.error e => Except.error e
      | Except.ok l => Except.ok (a :: l)

/-- `await Promise.all(batchArray.map(batch => batch.commit()))`
(normalize.js line 159), with `sink i` the settled outcome of batch `i`'s
commit: every batch's commit is issued (the map is total), and the run's
value is the `Promise.all` aggregate. -/
def commitAll {ε : Type} (sink : Nat → Except ε Unit) (numBatches : Nat) :
    Except ε (List Unit) :=
  promiseAll ((List.range numBatches).map sink)

/-! ### Character classes for the idempotence analysis

The modelled repertoire for the idempotence theorem.  Voiced (dakuten /
handakuten) kana are kept out of it: their canonical decompositions use
U+3099/U+309A, which the modelled decomposition tables do not carry. -/

/-- Katakana with a canonical decomposition (voiced/semi-voiced kana),
excluded from the modelled repertoire. -/
def VoicedKana (c : Nat) : Prop :=
  c = 0x30AC ∨ c = 0x30AE ∨ c = 0x30B0 ∨ c = 0x30B2 ∨ c = 0x30B4 ∨
  c = 0x30B6 ∨ c = 0x30B8 ∨ c = 0x30BA ∨ c = 0x30BC ∨ c = 0x30BE ∨
  c = 0x30C0 ∨ c = 0x30C2 ∨ c = 0x30C5 ∨ c = 0x30C7 ∨ c = 0x30C9 ∨
  c = 0x30D0 ∨ c = 0x30D1 ∨ c = 0x30D3 ∨ c = 0x30D4 ∨ c = 0x30D6 ∨
  c = 0x30D7 ∨ c = 0x30D9 ∨ c = 0x30DA ∨ c = 0x30DC ∨ c = 0x30DD ∨
  c = 0x30F4

instance : DecidablePred VoicedKana := fun c => by
  unfold VoicedKana; infer_instance

/-- Characters every pipeline step fixes: ASCII that is not an uppercase
letter, and unvoiced katakana. -/
def StableChar (c : Nat) : Prop :=
  (c ≤ 0x7F ∧ ¬(0x41 ≤ c ∧ c ≤ 0x5A)) ∨
  ((0x30A1 ≤ c ∧ c ≤ 0x30F6) ∧ ¬VoicedKana c)

instance : DecidablePred StableChar := fun c => by
  unfold StableChar; infer_instance

/-- The repertoire on which idempotence is proved: stable characters,
ASCII uppercase, unvoiced hiragana, fullwidth ASCII, and the precomposed
Latin letters of the modelled decomposition tables. -/
def SupportedChar (c : Nat) : Prop :=
  StableChar c ∨
  (0x41 ≤ c ∧ c ≤ 0x5A) ∨
  (0x3041 ≤ c ∧ c ≤ 0x3096 ∧ ¬VoicedKana (c + 0x60)) ∨
  (0xFF01 ≤ c ∧ c ≤ 0xFF5E) ∨
  c = 0x100 ∨ c = 0x101 ∨ c = 0xC9 ∨ c = 0xE9 ∨
  c = 0xC4 ∨ c = 0xE4 ∨ c = 0x1E46 ∨ c = 0x1E47

instance : DecidablePred SupportedChar := fun c => by
  unfold SupportedChar; infer_instance

/-- Character class after hiragana→katakana folding. -/
def PostKata (c : Nat) : Prop :=
  StableChar c ∨ (0x41 ≤ c ∧ c ≤ 0x5A) ∨ (0xFF01 ≤ c ∧ c ≤ 0xFF5E) ∨
  c = 0x100 ∨ c = 0x101 ∨ c = 0xC9 ∨ c = 0xE9 ∨
  c = 0xC4 ∨ c = 0xE4 ∨ c = 0x1E46 ∨ c = 0x1E47

/-- Character class after NFD and combining-mark removal. -/
def PreGood (c : Nat) : Prop :=
  StableChar c ∨ (0x41 ≤ c ∧ c ≤ 0x5A) ∨ (0xFF01 ≤ c ∧ c ≤ 0xFF5E)

/-- Character class after compatibility decomposition. -/
def MidGood (c : Nat) : Prop :=
  StableChar c ∨ (0x41 ≤ c ∧ c ≤ 0x5A)

/-! ### Concrete values for the end-to-end claims -/

/-- The C4 record
`{name: {en: "Pranayama", ja: "プラナヤマ"}, aliases: ["Prāṇāyāma"]}`,
with strings spelled as code points ("Prāṇāyāma" uses ā = U+0101 and
ṇ = U+1E47). -/
def record4 : JsValue :=
  vObj [("name", vObj [("en", vStr [0x50, 0x72, 0x61, 0x6E, 0x61, 0x79, 0x61, 0x6D, 0x61]),
                       ("ja", vStr [0x30D7, 0x30E9, 0x30CA, 0x30E4, 0x30DE])]),
        ("aliases", vArr [vStr [0x50, 0x72, 0x101, 0x1E47, 0x101, 0x79, 0x101, 0x6D, 0x61]])]

/-- A record with no `aliases` field whose `aliases_norm` field exists but
holds `null` (a falsy value). -/
def recordNullAliases : JsValue := vObj [("aliases_norm", vNull)]

/-- Is `data.k` an array (`Array.isArray`)? -/
def isArrayField : Option JsValue → Bool
  | some (vArr _) => true
  | _ => false

/-- A sink where batch 0's commit fails with error `[101]` and batch 1's
commit succeeds. -/
def sinkA : Nat → Except (List Nat) Unit :=
  fun i => if i = 0 then Except.error [101] else Except.ok ()

/-- A sink where every batch's commit fails with error `[101]`. -/
def sinkB : Nat → Except (List Nat) Unit :=
  fun _ => Except.error [101]

/-! ### Batching lemmas -/

/-- Reference recursion for the batch fold: the batches still to be
produced when `cur` is the current (not yet rolled-over) batch and `docs`
the remaining documents. -/
def fill {α : Type} (cur : List α) : List α → List (List α)
  | [] => [cur]
  | d :: ds =>
    if cur.length + 1 = 500 then (cur ++ [d]) :: fill [] ds
    else fill (cur ++ [d]) ds

theorem modifyIdx_append_last {β : Type} (finished : List β) (cur : β) (f : β → β) :
    modifyIdx (finished ++ [cur]) finished.length f = finished ++ [f cur] := by
  induction finished with
  | nil => rfl
  | cons x xs ih => simpa [modifyIdx] using ih

theorem foldl_batchStep_eq {α : Type} (docs : List α) :
    ∀ (finished : List (List α)) (cur : List α), cur.length < 500 →
      (docs.foldl batchStep ⟨finished ++ [cur], cur.length, finished.length⟩).arr
        = finished ++ fill cur docs := by
  induction docs with
  | nil => intro finished cur _; rfl
  | cons d ds ih =>
    intro finished cur h
    rw [List.foldl_cons]
    by_cases hc : cur.length + 1 = 500
    · have hstep : batchStep ⟨finished ++ [cur], cur.length, finished.length⟩ d
          = ⟨(finished ++ [cur ++ [d]]) ++ [[]], 0, finished.length + 1⟩ := by
        simp [batchStep, modifyIdx_append_last, hc]
      rw [hstep]
      have hidx : finished.length + 1 = (finished ++ [cur ++ [d]]).length + ([] : List α).length := by
        simp
      have := ih (finished ++ [cur ++ [d]]) [] (by norm_num)
      simp only [List.length_nil] at this
      rw [show (⟨(finished ++ [cur ++ [d]]) ++ [[]], 0, finished.length + 1⟩ : BatchState α)
            = ⟨(finished ++ [cur ++ [d]]) ++ [[]], 0, (finished ++ [cur ++ [d]]).length⟩ by simp]
      rw [this]
      simp [fill, hc]
    · have hstep : batchStep ⟨finished ++ [cur], cur.length, finished.length⟩ d
          = ⟨finished ++ [cur ++ [d]], (cur ++ [d]).length, finished.length⟩ := by
        simp [batchStep, modifyIdx_append_last, hc]
      rw [hstep]
      have hlt : (cur ++ [d]).length < 500 := by
        simp only [List.length_append, List.length_singleton]
        omega
      rw [ih finished (cur ++ [d]) hlt]
      simp [fill, hc]

theorem migrateBatches_eq_fill {α : Type} (docs : List α) (h : docs ≠ []) :
    migrateBatches docs = fill [] docs := by
  unfold migrateBatches
  rw [if_neg (by simpa [List.isEmpty_iff] using h)]
  simpa using foldl_batchStep_eq docs [] [] (by norm_num)

theorem fill_length_le {α : Type} (docs : List α) :
    ∀ cur : List α, cur.length < 500 → ∀ b ∈ fill cur docs, b.length ≤ 500 := by
  induction docs with
  | nil =>
    intro cur h b hb
    simp only [fill, List.mem_singleton] at hb
    subst hb
    omega
  | cons d ds ih =>
    intro cur h b hb
    by_cases hc : cur.length + 1 = 500
    · simp only [fill, if_pos hc, List.mem_cons] at hb
      rcases hb with rfl | hb
      · simp only [List.length_append, List.length_singleton]; omega
      · exact ih [] (by norm_num) b hb
    · simp only [fill, if_neg hc] at hb
      refine ih (cur ++ [d]) ?_ b hb
      simp only [List.length_append, List.length_singleton]
      omega

theorem fill_full {α : Type} (l1 : List α) :
    ∀ (cur : List α) (l2 : List α), cur.length < 500 → cur.length + l1.length = 500 →
      fill cur (l1 ++ l2) = (cur ++ l1) :: fill [] l2 := by
  induction l1 with
  | nil => intro cur l2 hlt hsum; simp at hsum; omega
  | cons d ds ih =>
    intro cur l2 hlt hsum
    simp only [List.length_cons] at hsum
    by_cases hc : cur.length + 1 = 500
    · have hds : ds = [] := by
        have : ds.length = 0 := by omega
        exact List.length_eq_zero.mp this
      subst hds
      simp [fill, hc]
    · rw [List.cons_append, fill, if_neg hc]
      rw [ih (cur ++ [d]) l2 (by simp; omega) (by simp; omega)]
      simp

theorem fill_short {α : Type} (docs : List α) :
    ∀ cur : List α, cur.length + docs.length < 500 → fill cur docs = [cur ++ docs] := by
  induction docs with
  | nil => intro cur _; simp [fill]
  | cons d ds ih =>
    intro cur h
    simp only [List.length_cons] at h
    rw [fill, if_neg (by omega)]
    rw [ih (cur ++ [d]) (by simp; omega)]
    simp

/-- C1: for every finite input stream, every batch produced by
`migrateData`'s batching logic has at most 500 operations: the rollover to
a fresh batch fires the instant the counter reaches 500, before a 501st
operation could be appended. -/
theorem batch_size_le_limit (docs : List Nat) (b : List Nat)
    (hb : b ∈ migrateBatches docs) : b.length ≤ 500 := by
  rcases docs with _ | ⟨d, ds⟩
  · simp [migrateBatches] at hb
  · rw [migrateBatches_eq_fill (d :: ds) (by simp)] at hb
    exact fill_length_le (d :: ds) [] (by norm_num) b hb

theorem batch_size_le_limit_witness :
    [0, 1, 2] ∈ migrateBatches [0, 1, 2] ∧ ([0, 1, 2] : List Nat).length ≤ 500 :=
  ⟨by decide, batch_size_le_limit [0, 1, 2] [0, 1, 2] (by decide)⟩

/-- C2: a stream of exactly 1001 records yields exactly 3 batches with
sizes 500, 500, 1 in arrival order. -/
theorem batches_of_1001_docs (docs : List Nat) (h : docs.length = 1001) :
    (migrateBatches docs).map List.length = [500, 500, 1] := by
  have hne : docs ≠ [] := by intro e; rw [e] at h; simp at h
  rw [migrateBatches_eq_fill docs hne]
  have hsplit1 : docs = docs.take 500 ++ docs.drop 500 := (List.take_append_drop 500 docs).symm
  have hlen1 : (docs.take 500).length = 500 := by simp [h]
  have hrest : (docs.drop 500).length = 501 := by simp [h]
  set rest := docs.drop 500 with hrestdef
  have hsplit2 : rest = rest.take 500 ++ rest.drop 500 := (List.take_append_drop 500 rest).symm
  have hlen2 : (rest.take 500).length = 500 := by simp [hrest]
  have hlen3 : (rest.drop 500).length = 1 := by simp [hrest]
  rw [hsplit1, fill_full (docs.take 500) [] rest (by norm_num) (by simpa using hlen1)]
  rw [hsplit2, fill_full (rest.take 500) [] (rest.drop 500) (by norm_num) (by simpa using hlen2)]
  rw [fill_short (rest.drop 500) [] (by simpa using by omega)]
  simp [hlen1, hlen2, hlen3]

theorem batches_of_1001_docs_witness :
    (List.replicate 1001 (0 : Nat)).length = 1001 ∧
      (migrateBatches (List.replicate 1001 (0 : Nat))).map List.length = [500, 500, 1] :=
  ⟨List.length_replicate 1001 0, batches_of_1001_docs (List.replicate 1001 0) (List.length_replicate 1001 0)⟩

/-- C5 counterexample: on an empty stream the code returns early
(normalize.js lines 94–97), so it does **not** finalize exactly one
(empty) batch — it produces none. -/
theorem empty_stream_not_one_batch :
    ¬ (migrateBatches ([] : List Nat)).length = 1 := by decide

/-- C5 amended: if the input stream is empty, `migrateData` returns before
any batch is created: zero batches are produced (and committed). -/
theorem empty_stream_zero_batches (α : Type) : migrateBatches ([] : List α) = [] := rfl

/-! ### Pipeline fixpoint on stable strings -/

theorem map_fix {f : Nat → Nat} : ∀ (s : List Nat), (∀ c ∈ s, f c = c) → s.map f = s
  | [], _ => rfl
  | c :: t, h => by
    rw [List.map_cons, h c (List.mem_cons_self c t),
      map_fix t (fun x hx => h x (List.mem_cons_of_mem c hx))]

theorem flatMap_fix {f : Nat → List Nat} :
    ∀ (s : List Nat), (∀ c ∈ s, f c = [c]) → s.flatMap f = s
  | [], _ => rfl
  | c :: t, h => by
    rw [List.flatMap_cons, h c (List.mem_cons_self c t),
      flatMap_fix t (fun x hx => h x (List.mem_cons_of_mem c hx))]
    rfl

theorem composeAux_fix :
    ∀ (t : List Nat) (a : Nat), (∀ c ∈ t, ∀ x, composePair x c = none) →
      composeAux a t = a :: t := by
  intro t
  induction t with
  | nil => intro a _; rfl
  | cons b t ih =>
    intro a h
    have hb : composePair a b = none := h b (List.mem_cons_self b t) a
    simp only [composeAux, hb]
    rw [ih b (fun c hc x => h c (List.mem_cons_of_mem b hc) x)]

theorem composeScan_fix (s : List Nat) (h : ∀ c ∈ s, ∀ x, composePair x c = none) :
    composeScan s = s := by
  cases s with
  | nil => rfl
  | cons a t =>
    simp only [composeScan]
    exact composeAux_fix t a (fun c hc x => h c (List.mem_cons_of_mem a hc) x)

theorem stable_kataShift (c : Nat) (h : StableChar c) : kataShift c = c := by
  unfold kataShift
  exact if_neg (by unfold StableChar VoicedKana at h; omega)

theorem stable_decomp (c : Nat) (h : StableChar c) : canonicalDecomp c = [c] := by
  unfold StableChar VoicedKana at h
  unfold canonicalDecomp
  split_ifs <;> first | rfl | (exfalso; omega)

theorem stable_not_cdm (c : Nat) (h : StableChar c) : (!isCdm c) = true := by
  unfold StableChar VoicedKana at h
  simp only [isCdm, Bool.not_eq_true', Bool.and_eq_false_iff, decide_eq_false_iff_not]
  omega

theorem stable_compat (c : Nat) (h : StableChar c) : compatDecomp c = [c] := by
  unfold compatDecomp
  rw [if_neg (by unfold StableChar VoicedKana at h; omega),
    if_neg (by unfold StableChar VoicedKana at h; omega)]
  exact stable_decomp c h

theorem midGood_not_combiner (c : Nat) (h : MidGood c) : ∀ x, composePair x c = none := by
  intro x
  unfold MidGood StableChar VoicedKana at h
  unfold composePair
  split_ifs <;> first | rfl | (exfalso; omega)

theorem stable_lower (c : Nat) (h : StableChar c) : lowerChar c = c := by
  unfold lowerChar
  exact if_neg (by unfold StableChar VoicedKana at h; omega)

/-- Every pipeline step of `normalizeForSearch` fixes a string of stable
characters. -/
theorem pipeline_fix (s : List Nat) (h : ∀ c ∈ s, StableChar c) :
    toLower (nfkc (stripCdm (nfd (hiraToKata s)))) = s := by
  have h1 : hiraToKata s = s := map_fix s (fun c hc => stable_kataShift c (h c hc))
  have h2 : nfd s = s := flatMap_fix s (fun c hc => stable_decomp c (h c hc))
  have h3 : stripCdm s = s :=
    List.filter_eq_self.mpr (fun c hc => stable_not_cdm c (h c hc))
  have h4 : nfkc s = s := by
    unfold nfkc
    rw [flatMap_fix s (fun c hc => stable_compat c (h c hc))]
    exact composeScan_fix s (fun c hc x => midGood_not_combiner c (Or.inl (h c hc)) x)
  rw [h1, h2, h3, h4]
  exact map_fix s (fun c hc => stable_lower c (h c hc))

/-! ### Class propagation through the pipeline -/

theorem supported_kata (c : Nat) (h : SupportedChar c) : PostKata (kataShift c) := by
  unfold SupportedChar StableChar VoicedKana at h
  unfold kataShift
  split_ifs with hh <;> (unfold PostKata StableChar VoicedKana; omega)

theorem postKata_decomp_mem (c c' : Nat) (h : PostKata c)
    (hc' : c' ∈ canonicalDecomp c) (hk : (!isCdm c') = true) : PreGood c' := by
  unfold PostKata StableChar VoicedKana at h
  simp only [isCdm, Bool.not_eq_true', Bool.and_eq_false_iff, decide_eq_false_iff_not] at hk
  unfold canonicalDecomp at hc'
  split_ifs at hc' <;>
    (simp only [List.mem_cons, List.mem_singleton, List.not_mem_nil, or_false] at hc';
      unfold PreGood StableChar VoicedKana; omega)

theorem preGood_compat_mem (c c' : Nat) (h : PreGood c) (hc' : c' ∈ compatDecomp c) :
    MidGood c' := by
  unfold PreGood StableChar VoicedKana at h
  unfold compatDecomp at hc'
  split_ifs at hc' with h1 h2
  · simp only [List.mem_singleton] at hc'
    unfold MidGood StableChar VoicedKana
    omega
  · exfalso; omega
  · unfold canonicalDecomp at hc'
    split_ifs at hc' <;>
      (simp only [List.mem_cons, List.mem_singleton, List.not_mem_nil, or_false] at hc';
        unfold MidGood StableChar VoicedKana; omega)

theorem midGood_lower (c : Nat) (h : MidGood c) : StableChar (lowerChar c) := by
  unfold MidGood StableChar VoicedKana at h
  unfold lowerChar
  split_ifs with hh <;> (unfold StableChar VoicedKana; omega)

/-- The pipeline sends strings over the supported repertoire to stable
strings. -/
theorem supported_pipe_stable (s : List Nat) (h : ∀ c ∈ s, SupportedChar c) :
    ∀ c' ∈ toLower (nfkc (stripCdm (nfd (hiraToKata s)))), StableChar c' := by
  have h0 : ∀ c ∈ hiraToKata s, PostKata c := by
    intro c hc
    rcases List.mem_map.mp hc with ⟨c0, hc0, rfl⟩
    exact supported_kata c0 (h c0 hc0)
  have h1 : ∀ c ∈ stripCdm (nfd (hiraToKata s)), PreGood c := by
    intro c hc
    rcases List.mem_filter.mp hc with ⟨hmem, hkeep⟩
    rcases List.mem_flatMap.mp hmem with ⟨c0, hc0, hdec⟩
    exact postKata_decomp_mem c0 c (h0 c0 hc0) hdec hkeep
  have h2 : ∀ c ∈ (stripCdm (nfd (hiraToKata s))).flatMap compatDecomp, MidGood c := by
    intro c hc
    rcases List.mem_flatMap.mp hc with ⟨c0, hc0, hdec⟩
    exact preGood_compat_mem c0 c (h1 c0 hc0) hdec
  have h3 : ∀ c ∈ nfkc (stripCdm (nfd (hiraToKata s))), MidGood c := by
    unfold nfkc
    rw [composeScan_fix _ (fun c hc x => midGood_not_combiner c (h2 c hc) x)]
    exact h2
  intro c' hc'
  rcases List.mem_map.mp hc' with ⟨c0, hc0, rfl⟩
  exact midGood_lower c0 (h3 c0 hc0)

/-- C3 counterexample: `normalizeForSearch` is not idempotent.  For
U+00A8 DIAERESIS the first pass yields space + U+0308 (its NFKC
compatibility expansion, whose combining mark survives because stripping
ran before NFKC), and the second pass strips that mark, yielding a bare
space. -/
theorem normalize_idem_fails_at_diaeresis :
    normalizeForSearchStr (normalizeForSearchStr [0xA8]) ≠ normalizeForSearchStr [0xA8] := by
  decide

/-- C3 amended: `normalizeForSearch` is idempotent on every string over
the supported repertoire (ASCII, unvoiced kana, fullwidth ASCII, and the
modelled precomposed Latin letters) — but not on all strings. -/
theorem normalize_idem_on_supported (s : List Nat) (h : ∀ c ∈ s, SupportedChar c) :
    normalizeForSearchStr (normalizeForSearchStr s) = normalizeForSearchStr s := by
  by_cases hs : s.isEmpty
  · have hnil : s = [] := List.isEmpty_iff.mp hs
    subst hnil
    rfl
  · have hcore : normalizeForSearchStr s = toLower (nfkc (stripCdm (nfd (hiraToKata s)))) := by
      unfold normalizeForSearchStr
      rw [if_neg (by simp [hs])]
    have hstable : ∀ c ∈ normalizeForSearchStr s, StableChar c := by
      rw [hcore]; exact supported_pipe_stable s h
    by_cases hye : (normalizeForSearchStr s).isEmpty
    · have hnil : normalizeForSearchStr s = [] := List.isEmpty_iff.mp hye
      rw [hnil]
      rfl
    · have key : ∀ y : List Nat, ¬y.isEmpty = true → (∀ c ∈ y, StableChar c) →
          normalizeForSearchStr y = y := by
        intro y hy hst
        unfold normalizeForSearchStr
        rw [if_neg hy]
        exact pipeline_fix y hst
      exact key (normalizeForSearchStr s) hye hstable

theorem normalize_idem_on_supported_witness :
    (∀ c ∈ [0x50, 0x72, 0x101, 0x1E47, 0x304B, 0xFF21], SupportedChar c) ∧
      normalizeForSearchStr (normalizeForSearchStr [0x50, 0x72, 0x101, 0x1E47, 0x304B, 0xFF21])
        = normalizeForSearchStr [0x50, 0x72, 0x101, 0x1E47, 0x304B, 0xFF21] :=
  ⟨by decide, normalize_idem_on_supported [0x50, 0x72, 0x101, 0x1E47, 0x304B, 0xFF21] (by decide)⟩

/-! ### End-to-end and per-record claims -/

/-- C4: for the record
`{name: {en: "Pranayama", ja: "プラナヤマ"}, aliases: ["Prāṇāyāma"]}`
the field update carries canonical name `"pranayama"`, exactly the fifteen
claimed 2-gram and 3-gram tokens (listed here in first-insertion order:
pr ra an na ay ya am ma pra ran ana nay aya yam ama), and normalized
aliases `["pranayama"]`. -/
theorem pranayama_end_to_end :
    buildUpdate record4 =
      ⟨[0x70, 0x72, 0x61, 0x6E, 0x61, 0x79, 0x61, 0x6D, 0x61],
       [[0x70, 0x72], [0x72, 0x61], [0x61, 0x6E], [0x6E, 0x61], [0x61, 0x79], [0x79, 0x61],
        [0x61, 0x6D], [0x6D, 0x61], [0x70, 0x72, 0x61], [0x72, 0x61, 0x6E], [0x61, 0x6E, 0x61],
        [0x6E, 0x61, 0x79], [0x61, 0x79, 0x61], [0x79, 0x61, 0x6D], [0x61, 0x6D, 0x61]],
       some [[0x70, 0x72, 0x61, 0x6E, 0x61, 0x79, 0x61, 0x6D, 0x61]]⟩ := by
  decide

/-- C9: degenerate inputs are safe — `normalizeForSearch(null)` and
`normalizeForSearch("")` return the empty string and `createNgrams` of the
empty string returns the empty set. -/
theorem degenerate_inputs_safe :
    normalizeForSearch vNull = [] ∧ normalizeForSearch (vStr []) = [] ∧
      createNgrams [] [2, 3] = [] := by
  decide

/-- C10: when the record's `name` field is a plain string, the
`typeof data.name === 'object'` guard rejects it, so the base name is
empty: `name_norm` is set to the empty string and `name_norm_ngrams` to
the empty list. -/
theorem string_name_ignored (d : JsValue) (s : List Nat)
    (h : getField d "name" = some (vStr s)) :
    (buildUpdate d).name_norm = [] ∧ (buildUpdate d).name_norm_ngrams = [] := by
  have hbase : resolveBaseName d = [] := by
    unfold resolveBaseName
    rw [h]
  simp [buildUpdate, hbase, normalizeForSearchStr, createNgrams]

theorem string_name_ignored_witness :
    getField (vObj [("name", vStr [0x41])]) "name" = some (vStr [0x41]) ∧
      (buildUpdate (vObj [("name", vStr [0x41])])).name_norm = [] ∧
      (buildUpdate (vObj [("name", vStr [0x41])])).name_norm_ngrams = [] :=
  ⟨rfl, string_name_ignored (vObj [("name", vStr [0x41])]) [0x41] rfl⟩

/-- C6 counterexample: a record with no `aliases` field whose
`aliases_norm` field exists but is `null` does **not** keep that field
unwritten — the guard `!data.aliases_norm` tests truthiness, not
existence, so the update overwrites it with `[]`. -/
theorem alias_guard_overwrites_null :
    isArrayField (getField recordNullAliases "aliases") = false ∧
      (getField recordNullAliases "aliases_norm").isSome = true ∧
      (buildUpdate recordNullAliases).aliases_norm = some [] :=
  ⟨rfl, rfl, rfl⟩

/-- C6 amended: for a record whose `aliases` field is not an array, the
update leaves `aliases_norm` unwritten exactly when the existing
`aliases_norm` value is truthy (any array qualifies); when the field is
absent or falsy (`null`, `""`, `0`, `false`) it is set to the empty list.
`name_norm` and `name_norm_ngrams` are recomputed regardless. -/
theorem alias_guard_truthy (d : JsValue)
    (h : isArrayField (getField d "aliases") = false) :
    (truthy (getField d "aliases_norm") = true → (buildUpdate d).aliases_norm = none) ∧
      (truthy (getField d "aliases_norm") = false → (buildUpdate d).aliases_norm = some []) ∧
      (buildUpdate d).name_norm = normalizeForSearchStr (resolveBaseName d) ∧
      (buildUpdate d).name_norm_ngrams = createNgrams (normalizeForSearchStr (resolveBaseName d)) := by
  have halias : (buildUpdate d).aliases_norm
      = (if truthy (getField d "aliases_norm") then none else some []) := by
    unfold buildUpdate
    cases hf : getField d "aliases" with
    | none => rfl
    | some v =>
      cases v with
      | vNull => rfl
      | vBool b => rfl
      | vNum n => rfl
      | vStr s => rfl
      | vObj l => rfl
      | vArr l => rw [hf] at h; simp [isArrayField] at h
  refine ⟨?_, ?_, rfl, rfl⟩
  · intro ht
    rw [halias, if_pos ht]
  · intro ht
    rw [halias, if_neg (by simp [ht])]

theorem alias_guard_truthy_witness :
    isArrayField (getField (vObj []) "aliases") = false ∧
      truthy (getField (vObj []) "aliases_norm") = false ∧
      (buildUpdate (vObj [])).aliases_norm = some [] :=
  ⟨rfl, rfl, (alias_guard_truthy (vObj []) rfl).2.1 rfl⟩

/-! ### N-gram membership characterization -/

theorem mem_addToSet (acc : List (List Nat)) (x t : List Nat) :
    t ∈ addToSet acc x ↔ t ∈ acc ∨ t = x := by
  unfold addToSet
  split_ifs with hx
  · exact ⟨Or.inl, fun h => h.elim id (fun he => he ▸ hx)⟩
  · simp

theorem mem_foldl_addToSet (g : Nat → List Nat) :
    ∀ (l : List Nat) (acc : List (List Nat)) (t : List Nat),
      t ∈ l.foldl (fun a i => addToSet a (g i)) acc ↔ t ∈ acc ∨ ∃ i ∈ l, t = g i := by
  intro l
  induction l with
  | nil => intro acc t; simp
  | cons x xs ih =>
    intro acc t
    rw [List.foldl_cons, ih, mem_addToSet]
    simp only [List.mem_cons]
    constructor
    · rintro ((h | rfl) | ⟨i, hi, rfl⟩)
      · exact Or.inl h
      · exact Or.inr ⟨x, Or.inl rfl, rfl⟩
      · exact Or.inr ⟨i, Or.inr hi, rfl⟩
    · rintro (h | ⟨i, rfl | hi, rfl⟩)
      · exact Or.inl (Or.inl h)
      · exact Or.inl (Or.inr rfl)
      · exact Or.inr ⟨i, hi, rfl⟩

theorem mem_createNgrams (text : List Nat) (ns : List Nat) (t : List Nat) :
    t ∈ createNgrams text ns ↔
      ¬text.isEmpty = true ∧
        ∃ n ∈ ns, ∃ i, i < text.length + 1 - n ∧ t = substringJS text i n := by
  unfold createNgrams
  split_ifs with he
  · simp [he]
  · have hfold : ∀ (l : List Nat) (acc : List (List Nat)),
        t ∈ l.foldl
            (fun acc n => (List.range (text.length + 1 - n)).foldl
              (fun a i => addToSet a (substringJS text i n)) acc) acc
          ↔ t ∈ acc ∨ ∃ n ∈ l, ∃ i, i < text.length + 1 - n ∧ t = substringJS text i n := by
      intro l
      induction l with
      | nil => intro acc; simp
      | cons n ns ih =>
        intro acc
        rw [List.foldl_cons, ih, mem_foldl_addToSet]
        simp only [List.mem_range, List.mem_cons]
        constructor
        · rintro ((h | ⟨i, hi, rfl⟩) | ⟨m, hm, i, hi, rfl⟩)
          · exact Or.inl h
          · exact Or.inr ⟨n, Or.inl rfl, i, hi, rfl⟩
          · exact Or.inr ⟨m, Or.inr hm, i, hi, rfl⟩
        · rintro (h | ⟨m, rfl | hm, i, hi, rfl⟩)
          · exact Or.inl (Or.inl h)
          · exact Or.inl (Or.inr ⟨i, hi, rfl⟩)
          · exact Or.inr ⟨m, hm, i, hi, rfl⟩
    rw [hfold ns []]
    simp [he]

/-- C8: token derivation emits, for each requested length `n`, the
substring of length `n` at every offset `i` with `i + n ≤ length text`,
deduplicated into one set; and on the concrete inputs,
`createNgrams "abcd" [2,3]` is `{"ab","bc","cd","abc","bcd"}` and
`createNgrams "a" [2,3]` is empty ("abcd" is `[97,98,99,100]`). -/
theorem ngram_characterization (text : List Nat) (ns : List Nat)
    (hpos : ∀ n ∈ ns, 0 < n) :
    (∀ t, t ∈ createNgrams text ns ↔
        ∃ n ∈ ns, ∃ i, i + n ≤ text.length ∧ t = substringJS text i n) ∧
      createNgrams [97, 98, 99, 100] [2, 3]
        = [[97, 98], [98, 99], [99, 100], [97, 98, 99], [98, 99, 100]] ∧
      createNgrams [97] [2, 3] = [] := by
  refine ⟨?_, by decide, by decide⟩
  intro t
  rw [mem_createNgrams]
  constructor
  · rintro ⟨-, n, hn, i, hi, rfl⟩
    exact ⟨n, hn, i, by omega, rfl⟩
  · rintro ⟨n, hn, i, hi, rfl⟩
    have h0 : 0 < n := hpos n hn
    have hne : ¬text.isEmpty = true := by
      intro he
      have hnil : text = [] := List.isEmpty_iff.mp he
      rw [hnil] at hi
      simp at hi
      omega
    exact ⟨hne, n, hn, i, by omega, rfl⟩

theorem ngram_characterization_witness :
    (∀ n ∈ [2, 3], 0 < n) ∧
      ([97, 98] ∈ createNgrams [97, 98, 99, 100] [2, 3] ↔
        ∃ n ∈ [2, 3], ∃ i, i + n ≤ [97, 98, 99, 100].length ∧
          [97, 98] = substringJS [97, 98, 99, 100] i n) :=
  ⟨by decide, (ngram_characterization [97, 98, 99, 100] [2, 3] (by decide)).1 [97, 98]⟩

/-! ### Commit aggregation -/

theorem commitAll_succ {ε : Type} (sink : Nat → Except ε Unit) (n : Nat) :
    commitAll sink (n + 1) =
      match sink 0 with
      | Except.error e => Except.error e
      | Except.ok _ =>
        match commitAll (fun i => sink (i + 1)) n with
        | Except.error e => Except.error e
        | Except.ok l => Except.ok (() :: l) := by
  unfold commitAll
  rw [List.range_succ_eq_map]
  simp only [List.map_cons, List.map_map, promiseAll]
  have hcomp : (sink ∘ Nat.succ) = fun i => sink (i + 1) := rfl
  rw [hcomp]
  cases h0 : sink 0 with
  | error e => rfl
  | ok a =>
    cases a
    cases hr : promiseAll (List.map (fun i => sink (i + 1)) (List.range n)) <;> rfl

/-- C7 counterexample: the run's value is not a list of per-batch
outcomes, and a failure is not attributed to a batch: with two batches,
a sink where only batch 0 fails and a sink where both batches fail
produce the same run value, the bare error `[101]`. -/
theorem commit_result_not_per_batch :
    commitAll sinkA 2 = commitAll sinkB 2 ∧
      (List.range 2).map sinkA ≠ (List.range 2).map sinkB ∧
      commitAll sinkA 2 = Except.error [101] := by
  refine ⟨rfl, ?_, rfl⟩
  intro h
  simp [sinkA, sinkB, List.range_succ] at h

/-- C7 amended: every batch's commit is issued independently of the
others' outcomes (the run maps `commit` over all batches, with no
rollback), but `Promise.all` aggregates them: the run's value is the
ok-list exactly when every batch succeeds, and on failure it is a single
bare error — the failing batch's error value, carrying no batch index (in
this model the first failing index; all earlier batches succeeded). -/
theorem commitAll_characterization {ε : Type} (sink : Nat → Except ε Unit) (n : Nat) :
    (commitAll sink n = Except.ok (List.replicate n ()) ↔ ∀ i < n, sink i = Except.ok ()) ∧
      (∀ e, commitAll sink n = Except.error e →
        ∃ i, i < n ∧ sink i = Except.error e ∧ ∀ j < i, sink j = Except.ok ()) := by
  induction n generalizing sink with
  | zero =>
    constructor
    · constructor
      · intro _ i hi; omega
      · intro _; rfl
    · intro e he
      exact absurd he (by simp [commitAll, promiseAll])
  | succ n ih =>
    rw [commitAll_succ]
    rcases ih (fun i => sink (i + 1)) with ⟨ihok, iherr⟩
    cases h0 : sink 0 with
    | error e0 =>
      constructor
      · constructor
        · intro h; exact absurd h (by simp)
        · intro hall
          have h00 := hall 0 (by omega)
          rw [h0] at h00
          exact absurd h00 (by simp)
      · intro e he
        have he0 : e0 = e := by
          simpa using he
        exact ⟨0, by omega, by rw [h0, he0], fun j hj => by omega⟩
    | ok a =>
      cases a
      cases hr : commitAll (fun i => sink (i + 1)) n with
      | error e1 =>
        constructor
        · constructor
          · intro h; exact absurd h (by simp)
          · intro hall
            rcases iherr e1 hr with ⟨i, hi, herr, -⟩
            have := hall (i + 1) (by omega)
            rw [herr] at this
            exact absurd this (by simp)
        · intro e he
          have he1 : e1 = e := by simpa using he
          rcases iherr e1 hr with ⟨i, hi, herr, hok⟩
          refine ⟨i + 1, by omega, by rw [← he1]; exact herr, ?_⟩
          intro j hj
          cases j with
          | zero => exact h0
          | succ k => exact hok k (by omega)
      | ok l =>
        constructor
        · have hiff : l = List.replicate n () ↔ ∀ i < n, sink (i + 1) = Except.ok () := by
            rw [← ihok]
            rw [hr]
            constructor
            · intro h; rw [h]
            · intro h; simpa using h
          constructor
          · intro h
            have hl : l = List.replicate n () := by
              rw [List.replicate_succ] at h
              simpa using h
            intro i hi
            cases i with
            | zero => exact h0
            | succ k => exact (hiff.mp hl) k (by omega)
          · intro hall
            have hl : l = List.replicate n () :=
              hiff.mpr (fun i hi => hall (i + 1) (by omega))
            rw [List.replicate_succ, hl]
        · intro e he
          exact absurd he (by simp)

theorem commitAll_characterization_witness :
    ∃ i, i < 2 ∧ sinkA i = Except.error [101] ∧ ∀ j < i, sinkA j = Except.ok () :=
  (commitAll_characterization sinkA 2).2 [101] rfl

end FirestoreFieldNorm
